import Mathlib

/-!
Shallow embedding of the MIFARE block string codec implemented in
rfid_fingerprint_integration/rfid/tests/legacy_rfid_manager.py
(`write_string`, `read_string`, `get_string_info`).

Modelling conventions:
* a byte is a `Nat` below 256, a block is its list of 16 bytes;
* a Python `str` is the list of its Unicode code points (`List Nat`);
* the block device is a total function from block index to block content
  (`read_block` always succeeds and returns 16 bytes);
* Python `while` loops that advance `current_block` by one and stop at
  `max_blocks` are written with an explicit fuel equal to
  `max_blocks - current_block`, which makes the two exit conditions
  (`fuel = 0` in Lean, `current_block < max_blocks` in Python) coincide.
-/

/-- UTF-8 encoding of a single code point, as CPython's
`str.encode("utf-8")` produces it for Unicode scalar values. -/
def utf8EncodeChar (c : Nat) : List Nat :=
  if c < 128 then [c]
  else if c < 2048 then [192 + c / 64, 128 + c % 64]
  else if c < 65536 then [224 + c / 4096, 128 + c / 64 % 64, 128 + c % 64]
  else [240 + c / 262144, 128 + c / 4096 % 64, 128 + c / 64 % 64, 128 + c % 64]

/-- UTF-8 encoding of a whole string (list of code points). -/
def utf8Encode : List Nat → List Nat
  | [] => []
  | c :: cs => utf8EncodeChar c ++ utf8Encode cs

/-- A code point CPython can encode to UTF-8: a Unicode scalar value
(below 0x110000 and not a surrogate). -/
def ValidScalar (c : Nat) : Prop := c < 1114112 ∧ ¬(55296 ≤ c ∧ c < 57344)

instance (c : Nat) : Decidable (ValidScalar c) := by
  unfold ValidScalar; infer_instance

/-- One step of CPython's UTF-8 decoder with errors="ignore": given the
first byte `b` and the remaining bytes `rest`, return the decoded code
point when a well-formed sequence starts here (`none` otherwise), and
the bytes left after the consumed ones.  On an ill-formed sequence the
decoder skips its maximal valid subpart (at least the first byte); a
sequence truncated by the end of input is consumed entirely. -/
def utf8Step (b : Nat) (rest : List Nat) : Option Nat × List Nat :=
  if b < 128 then (some b, rest)
  else if b < 194 then (none, rest)
  else if b < 224 then
    match rest with
    | [] => (none, [])
    | b1 :: r1 =>
      if 128 ≤ b1 ∧ b1 < 192 then (some ((b - 192) * 64 + (b1 - 128)), r1)
      else (none, b1 :: r1)
  else if b < 240 then
    match rest with
    | [] => (none, [])
    | b1 :: r1 =>
      if (if b = 224 then 160 ≤ b1 ∧ b1 < 192
          else if b = 237 then 128 ≤ b1 ∧ b1 < 160
          else 128 ≤ b1 ∧ b1 < 192) then
        match r1 with
        | [] => (none, [])
        | b2 :: r2 =>
          if 128 ≤ b2 ∧ b2 < 192 then
            (some ((b - 224) * 4096 + (b1 - 128) * 64 + (b2 - 128)), r2)
          else (none, b2 :: r2)
      else (none, b1 :: r1)
  else if b < 245 then
    match rest with
    | [] => (none, [])
    | b1 :: r1 =>
      if (if b = 240 then 144 ≤ b1 ∧ b1 < 192
          else if b = 244 then 128 ≤ b1 ∧ b1 < 144
          else 128 ≤ b1 ∧ b1 < 192) then
        match r1 with
        | [] => (none, [])
        | b2 :: r2 =>
          if 128 ≤ b2 ∧ b2 < 192 then
            match r2 with
            | [] => (none, [])
            | b3 :: r3 =>
              if 128 ≤ b3 ∧ b3 < 192 then
                (some ((b - 240) * 262144 + (b1 - 128) * 4096 +
                  (b2 - 128) * 64 + (b3 - 128)), r3)
              else (none, b3 :: r3)
          else (none, b2 :: r2)
      else (none, b1 :: r1)
  else (none, rest)

/-- Decoding loop; the fuel only needs to be at least the list length,
since every step consumes at least one byte. -/
def utf8DecodeLoop : Nat → List Nat → List Nat
  | 0, _ => []
  | _ + 1, [] => []
  | fuel + 1, b :: rest =>
    match utf8Step b rest with
    | (some c, r) => c :: utf8DecodeLoop fuel r
    | (none, r) => utf8DecodeLoop fuel r

/-- CPython `bytes.decode("utf-8", errors="ignore")`, as used in
`read_string` both to count characters and to produce the result. -/
def utf8DecodeIgnore (l : List Nat) : List Nat := utf8DecodeLoop l.length l

/-! ### write_string (legacy_rfid_manager.py lines 523-624) -/

/-- The 4-byte big-endian length header `write_string` builds from the
character count (`(char_length >> k) & 0xFF` for k = 24, 16, 8, 0). -/
def headerBytes (cl : Nat) : List Nat :=
  [cl / 16777216 % 256, cl / 65536 % 256, cl / 256 % 256, cl % 256]

/-- Header plus UTF-8 payload, zero-padded to a multiple of 16 bytes
(the `while len(data) % 16 != 0: data.append(0)` loop). -/
def paddedData (s : List Nat) : List Nat :=
  let data := headerBytes s.length ++ utf8Encode s
  data ++ List.replicate ((16 - data.length % 16) % 16) 0

/-- `chunks_needed = len(data) // 16`. -/
def chunksNeeded (s : List Nat) : Nat := (paddedData s).length / 16

/-- The silent advance off a trailer start block
(`if (start_block + 1) % 4 == 0: start_block += 1`). -/
def adjStart (sb : Nat) : Nat := if (sb + 1) % 4 = 0 then sb + 1 else sb

/-- The block-allocation loop of `write_string`: starting at
`current`, append every non-trailer block index until `needed` blocks
are collected; the fuel is `max_blocks - current`, so fuel exhaustion
is exactly the `current_block < max_blocks` exit. -/
def allocLoop (needed : Nat) : Nat → Nat → List Nat → List Nat
  | 0, _, acc => acc
  | fuel + 1, current, acc =>
    if acc.length < needed then
      if (current + 1) % 4 = 0 then allocLoop needed fuel (current + 1) acc
      else allocLoop needed fuel (current + 1) (acc ++ [current])
    else acc

/-- `available_blocks` as computed by `write_string`. -/
def allocBlocks (mb needed start : Nat) : List Nat :=
  allocLoop needed (mb - start) start []

/-- `write_string(start_block, text, max_length)` on a card with `mb`
blocks, as a pure planner: `none` on the pre-flight failures (string
too long, start block 0, not enough writable blocks), otherwise the
ordered list of (block index, 16-byte chunk) writes it performs. -/
def write_string (mb sb ml : Nat) (s : List Nat) :
    Option (List (Nat × List Nat)) :=
  if ml < s.length then none
  else if sb = 0 then none
  else
    let start := adjStart sb
    let data := paddedData s
    let k := chunksNeeded s
    let avail := allocBlocks mb k start
    if avail.length < k then none
    else some ((List.range k).map fun i =>
      (avail.getD i 0, (data.drop (i * 16)).take 16))

/-- Apply a list of block writes to a device, in order. -/
def applyWrites (d : Nat → List Nat) (ws : List (Nat × List Nat)) :
    Nat → List Nat :=
  ws.foldl (fun dev pc => fun b => if b = pc.1 then pc.2 else dev b) d

/-- A blank card: every block reads as 16 zero bytes. -/
def zeroDevice : Nat → List Nat := fun _ => List.replicate 16 0

/-- The effect of a `write_string` call on the device: the planned
blocks are written in order when the pre-flight checks pass, and no
block is touched when they fail. -/
def write_string_effect (d : Nat → List Nat) (mb sb ml : Nat)
    (s : List Nat) : Nat → List Nat :=
  match write_string mb sb ml s with
  | some plan => applyWrites d plan
  | none => d

/-! ### read_string and get_string_info (lines 655-864) -/

/-- Step 1 of `read_string`: header format detection on the 16 bytes of
the first block, with the `max_length` ceiling `ml`.  Returns the
detected character count and header size.  The guard transcribes
`0 < length_4byte <= max_length and (block_data[0] == 0 or
(block_data[0] == 0 and block_data[1] == 0))` literally. -/
def detectHeader (ml : Nat) (bd : List Nat) : Option (Nat × Nat) :=
  let L4 := bd.getD 0 0 * 16777216 + bd.getD 1 0 * 65536 +
    bd.getD 2 0 * 256 + bd.getD 3 0
  let L2 := bd.getD 0 0 * 256 + bd.getD 1 0
  if 0 < L4 ∧ L4 ≤ ml ∧
      (bd.getD 0 0 = 0 ∨ (bd.getD 0 0 = 0 ∧ bd.getD 1 0 = 0)) then
    some (L4, 4)
  else if 0 < L2 ∧ L2 ≤ 1000 then some (L2, 2)
  else none

/-- The format detection of `get_string_info` (lines 659-679): the same
shape as `read_string`'s but with the ceiling hard-coded to 10000. -/
def detectInfo (bd : List Nat) : Option (Nat × Nat) :=
  let L4 := bd.getD 0 0 * 16777216 + bd.getD 1 0 * 65536 +
    bd.getD 2 0 * 256 + bd.getD 3 0
  let L2 := bd.getD 0 0 * 256 + bd.getD 1 0
  if 0 < L4 ∧ L4 ≤ 10000 ∧
      (bd.getD 0 0 = 0 ∨ (bd.getD 0 0 = 0 ∧ bd.getD 1 0 = 0)) then
    some (L4, 4)
  else if 0 < L2 ∧ L2 ≤ 1000 then some (L2, 2)
  else none

/-- The block-walking loop of `read_string`: from `current`
(fuel `= max_blocks - current`), with `blocksRead` blocks read so far,
the running `charsDecoded` counter and the accumulated `raw` bytes.
Trailer blocks are skipped; an all-zero block ends collection once
enough characters have been decoded; otherwise the 16 bytes are
appended and the loop stops as soon as the permissive decode of the
accumulator reaches `cc` characters. -/
def readLoop (d : Nat → List Nat) (cc cap : Nat) :
    Nat → Nat → Nat → Nat → List Nat → List Nat
  | 0, _, _, _, raw => raw
  | fuel + 1, current, blocksRead, charsDecoded, raw =>
    if charsDecoded < cc ∧ blocksRead < cap then
      if (current + 1) % 4 = 0 then
        readLoop d cc cap fuel (current + 1) blocksRead charsDecoded raw
      else
        let bd := d current
        if bd = List.replicate 16 0 ∧ cc ≤ (utf8DecodeIgnore raw).length then
          raw
        else
          let raw2 := raw ++ bd
          let cd := (utf8DecodeIgnore raw2).length
          if cc ≤ cd then raw2
          else readLoop d cc cap fuel (current + 1) (blocksRead + 1) cd raw2
    else raw

/-- `read_string(start_block, max_length)` on a card with `mb` blocks
whose content is `d`: detect the header, short-circuit on a zero or
over-long count, collect raw bytes from the first block and the walk,
then decode permissively and truncate to the detected count. -/
def read_string (d : Nat → List Nat) (mb start ml : Nat) :
    Option (List Nat) :=
  let bd := d start
  match detectHeader ml bd with
  | none => none
  | some (cc, hs) =>
    if cc = 0 then some []
    else if ml < cc then none
    else
      let raw0 := (bd.drop hs).take (16 - hs)
      let cap := min 32 (mb - start)
      let rawF := readLoop d cc cap (mb - (start + 1)) (start + 1) 0 0 raw0
      some ((utf8DecodeIgnore rawF).take cc)

/-! ### Facts about the UTF-8 codec -/

theorem utf8Step_rest_length (b : Nat) (rest : List Nat) :
    (utf8Step b rest).2.length ≤ rest.length := by
  unfold utf8Step
  repeat' split
  all_goals simp_arith [List.length_cons]

theorem utf8DecodeLoop_congr : ∀ (f1 f2 : Nat) (l : List Nat),
    l.length ≤ f1 → l.length ≤ f2 → utf8DecodeLoop f1 l = utf8DecodeLoop f2 l := by
  intro f1
  induction f1 with
  | zero =>
    intro f2 l h1 _
    have hl : l = [] := List.length_eq_zero.mp (Nat.le_zero.mp h1)
    subst hl
    cases f2 <;> simp [utf8DecodeLoop]
  | succ f ih =>
    intro f2 l h1 h2
    rcases l with _ | ⟨b, rest⟩
    · cases f2 <;> simp [utf8DecodeLoop]
    · rcases f2 with _ | f2p
      · simp at h2
      · simp only [utf8DecodeLoop]
        have hs := utf8Step_rest_length b rest
        rcases hstep : utf8Step b rest with ⟨c?, r⟩
        rw [hstep] at hs
        simp only at hs
        simp only [List.length_cons] at h1 h2
        rcases c? with _ | c
        · show utf8DecodeLoop f r = utf8DecodeLoop f2p r
          exact ih f2p r (by omega) (by omega)
        · show c :: utf8DecodeLoop f r = c :: utf8DecodeLoop f2p r
          rw [ih f2p r (by omega) (by omega)]

theorem utf8DecodeIgnore_cons_some {b c : Nat} {rest r : List Nat}
    (h : utf8Step b rest = (some c, r)) :
    utf8DecodeIgnore (b :: rest) = c :: utf8DecodeIgnore r := by
  have hs := utf8Step_rest_length b rest
  rw [h] at hs
  unfold utf8DecodeIgnore
  simp only [List.length_cons, utf8DecodeLoop, h]
  exact congrArg _ (utf8DecodeLoop_congr rest.length r.length r hs le_rfl)

theorem utf8DecodeIgnore_cons_none {b : Nat} {rest r : List Nat}
    (h : utf8Step b rest = (none, r)) :
    utf8DecodeIgnore (b :: rest) = utf8DecodeIgnore r := by
  have hs := utf8Step_rest_length b rest
  rw [h] at hs
  unfold utf8DecodeIgnore
  simp only [List.length_cons, utf8DecodeLoop, h]
  exact utf8DecodeLoop_congr rest.length r.length r hs le_rfl

theorem utf8Step_enc1 (c : Nat) (h : c < 128) (tl : List Nat) :
    utf8Step c tl = (some c, tl) := by
  simp only [utf8Step]
  rw [if_pos h]

theorem utf8Step_enc2 (c : Nat) (h1 : 128 ≤ c) (h2 : c < 2048) (tl : List Nat) :
    utf8Step (192 + c / 64) ((128 + c % 64) :: tl) = (some c, tl) := by
  simp only [utf8Step]
  rw [if_neg (by omega), if_neg (by omega), if_pos (by omega),
    if_pos (by omega : 128 ≤ 128 + c % 64 ∧ 128 + c % 64 < 192)]
  simp only [Prod.mk.injEq, Option.some.injEq]
  exact ⟨by omega, trivial⟩

theorem utf8Step_enc3 (c : Nat) (h1 : 2048 ≤ c) (h2 : c < 65536)
    (h3 : ¬(55296 ≤ c ∧ c < 57344)) (tl : List Nat) :
    utf8Step (224 + c / 4096) ((128 + c / 64 % 64) :: (128 + c % 64) :: tl) =
      (some c, tl) := by
  simp only [utf8Step]
  rw [if_neg (by omega), if_neg (by omega), if_neg (by omega), if_pos (by omega)]
  rw [if_pos (by split_ifs <;> omega)]
  rw [if_pos (by omega : 128 ≤ 128 + c % 64 ∧ 128 + c % 64 < 192)]
  simp only [Prod.mk.injEq, Option.some.injEq]
  exact ⟨by omega, trivial⟩

theorem utf8Step_enc4 (c : Nat) (h1 : 65536 ≤ c) (h2 : c < 1114112) (tl : List Nat) :
    utf8Step (240 + c / 262144)
      ((128 + c / 4096 % 64) :: (128 + c / 64 % 64) :: (128 + c % 64) :: tl) =
      (some c, tl) := by
  simp only [utf8Step]
  rw [if_neg (by omega), if_neg (by omega), if_neg (by omega), if_neg (by omega),
    if_pos (by omega)]
  rw [if_pos (by split_ifs <;> omega)]
  rw [if_pos (by omega : 128 ≤ 128 + c / 64 % 64 ∧ 128 + c / 64 % 64 < 192)]
  rw [if_pos (by omega : 128 ≤ 128 + c % 64 ∧ 128 + c % 64 < 192)]
  simp only [Prod.mk.injEq, Option.some.injEq]
  exact ⟨by omega, trivial⟩

theorem utf8DecodeIgnore_encodeChar (c : Nat) (hc : ValidScalar c) (tl : List Nat) :
    utf8DecodeIgnore (utf8EncodeChar c ++ tl) = c :: utf8DecodeIgnore tl := by
  obtain ⟨hlt, hsur⟩ := hc
  by_cases e1 : c < 128
  · simp only [utf8EncodeChar, if_pos e1, List.cons_append, List.nil_append]
    exact utf8DecodeIgnore_cons_some (utf8Step_enc1 c e1 tl)
  · by_cases e2 : c < 2048
    · simp only [utf8EncodeChar, if_neg e1, if_pos e2, List.cons_append,
        List.nil_append]
      exact utf8DecodeIgnore_cons_some (utf8Step_enc2 c (by omega) e2 tl)
    · by_cases e3 : c < 65536
      · simp only [utf8EncodeChar, if_neg e1, if_neg e2, if_pos e3,
          List.cons_append, List.nil_append]
        exact utf8DecodeIgnore_cons_some (utf8Step_enc3 c (by omega) e3 hsur tl)
      · simp only [utf8EncodeChar, if_neg e1, if_neg e2, if_neg e3,
          List.cons_append, List.nil_append]
        exact utf8DecodeIgnore_cons_some (utf8Step_enc4 c (by omega) hlt tl)

theorem utf8DecodeIgnore_encode_append (s : List Nat)
    (h : ∀ c ∈ s, ValidScalar c) (tl : List Nat) :
    utf8DecodeIgnore (utf8Encode s ++ tl) = s ++ utf8DecodeIgnore tl := by
  induction s with
  | nil => simp [utf8Encode]
  | cons c cs ih =>
    simp only [utf8Encode, List.append_assoc]
    rw [utf8DecodeIgnore_encodeChar c (h c (by simp)) _,
      ih (fun x hx => h x (by simp [hx]))]
    rfl

theorem utf8DecodeIgnore_replicate_zero (n : Nat) :
    utf8DecodeIgnore (List.replicate n 0) = List.replicate n 0 := by
  induction n with
  | zero => rfl
  | succ n ih =>
    rw [List.replicate_succ,
      utf8DecodeIgnore_cons_some (utf8Step_enc1 0 (by omega) _), ih]

theorem utf8DecodeIgnore_replicate_zero_append (p : Nat) (tl : List Nat) :
    utf8DecodeIgnore (List.replicate p 0 ++ tl) =
      List.replicate p 0 ++ utf8DecodeIgnore tl := by
  induction p with
  | zero => simp
  | succ n ih =>
    rw [List.replicate_succ, List.cons_append,
      utf8DecodeIgnore_cons_some (utf8Step_enc1 0 (by omega) _), ih]
    rfl

theorem utf8DecodeIgnore_contBytes (l : List Nat)
    (h : ∀ x ∈ l, 128 ≤ x ∧ x < 194) : utf8DecodeIgnore l = [] := by
  induction l with
  | nil => rfl
  | cons b rest ih =>
    have hb := h b (by simp)
    have hstep : utf8Step b rest = (none, rest) := by
      simp only [utf8Step]
      rw [if_neg (by omega), if_pos (by omega)]
    rw [utf8DecodeIgnore_cons_none hstep, ih (fun x hx => h x (by simp [hx]))]

theorem utf8EncodeChar_length_pos (c : Nat) : 1 ≤ (utf8EncodeChar c).length := by
  simp only [utf8EncodeChar]
  split_ifs <;> simp

theorem utf8Encode_length_ge (s : List Nat) : s.length ≤ (utf8Encode s).length := by
  induction s with
  | nil => simp [utf8Encode]
  | cons c cs ih =>
    simp only [utf8Encode, List.length_append, List.length_cons]
    have := utf8EncodeChar_length_pos c
    omega

theorem utf8DecodeIgnore_encodeChar_take (c : Nat) (hc : ValidScalar c) (q : Nat)
    (hq : q < (utf8EncodeChar c).length) :
    utf8DecodeIgnore ((utf8EncodeChar c).take q) = [] := by
  obtain ⟨hlt, hsur⟩ := hc
  by_cases e1 : c < 128
  · simp only [utf8EncodeChar, if_pos e1, List.length_cons, List.length_nil] at hq
    interval_cases q
    rfl
  · by_cases e2 : c < 2048
    · simp only [utf8EncodeChar, if_neg e1, if_pos e2, List.length_cons,
        List.length_nil] at hq ⊢
      interval_cases q
      · rfl
      · rw [List.take_succ_cons, List.take_zero]
        have hstep : utf8Step (192 + c / 64) [] = (none, []) := by
          simp only [utf8Step]
          rw [if_neg (by omega), if_neg (by omega), if_pos (by omega)]
        rw [utf8DecodeIgnore_cons_none hstep]
        rfl
    · by_cases e3 : c < 65536
      · simp only [utf8EncodeChar, if_neg e1, if_neg e2, if_pos e3,
          List.length_cons, List.length_nil] at hq ⊢
        interval_cases q
        · rfl
        · rw [List.take_succ_cons, List.take_zero]
          have hstep : utf8Step (224 + c / 4096) [] = (none, []) := by
            simp only [utf8Step]
            rw [if_neg (by omega), if_neg (by omega), if_neg (by omega),
              if_pos (by omega)]
          rw [utf8DecodeIgnore_cons_none hstep]
          rfl
        · rw [List.take_succ_cons, List.take_succ_cons, List.take_zero]
          have hstep : utf8Step (224 + c / 4096) [128 + c / 64 % 64] = (none, []) ∨
              utf8Step (224 + c / 4096) [128 + c / 64 % 64] =
                (none, [128 + c / 64 % 64]) := by
            simp only [utf8Step]
            rw [if_neg (by omega), if_neg (by omega), if_neg (by omega),
              if_pos (by omega)]
            split_ifs
            all_goals first | (left; rfl) | (right; rfl) | (exfalso; omega)
          rcases hstep with hstep | hstep
          · rw [utf8DecodeIgnore_cons_none hstep]
            rfl
          · rw [utf8DecodeIgnore_cons_none hstep]
            refine utf8DecodeIgnore_contBytes _ ?_
            intro x hx
            simp at hx
            omega
      · simp only [utf8EncodeChar, if_neg e1, if_neg e2, if_neg e3,
          List.length_cons, List.length_nil] at hq ⊢
        interval_cases q
        · rfl
        · rw [List.take_succ_cons, List.take_zero]
          have hstep : utf8Step (240 + c / 262144) [] = (none, []) := by
            simp only [utf8Step]
            rw [if_neg (by omega), if_neg (by omega), if_neg (by omega),
              if_neg (by omega), if_pos (by omega)]
          rw [utf8DecodeIgnore_cons_none hstep]
          rfl
        · rw [List.take_succ_cons, List.take_succ_cons, List.take_zero]
          have hstep : utf8Step (240 + c / 262144) [128 + c / 4096 % 64] =
              (none, []) ∨
              utf8Step (240 + c / 262144) [128 + c / 4096 % 64] =
                (none, [128 + c / 4096 % 64]) := by
            simp only [utf8Step]
            rw [if_neg (by omega), if_neg (by omega), if_neg (by omega),
              if_neg (by omega), if_pos (by omega)]
            split_ifs
            all_goals first | (left; rfl) | (right; rfl) | (exfalso; omega)
          rcases hstep with hstep | hstep
          · rw [utf8DecodeIgnore_cons_none hstep]
            rfl
          · rw [utf8DecodeIgnore_cons_none hstep]
            refine utf8DecodeIgnore_contBytes _ ?_
            intro x hx
            simp at hx
            omega
        · rw [List.take_succ_cons, List.take_succ_cons, List.take_succ_cons,
            List.take_zero]
          have hstep : utf8Step (240 + c / 262144)
                [128 + c / 4096 % 64, 128 + c / 64 % 64] = (none, []) ∨
              utf8Step (240 + c / 262144)
                [128 + c / 4096 % 64, 128 + c / 64 % 64] =
                (none, [128 + c / 4096 % 64, 128 + c / 64 % 64]) := by
            simp only [utf8Step]
            rw [if_neg (by omega), if_neg (by omega), if_neg (by omega),
              if_neg (by omega), if_pos (by omega)]
            split_ifs
            all_goals first | (left; rfl) | (right; rfl) | (exfalso; omega)
          rcases hstep with hstep | hstep
          · rw [utf8DecodeIgnore_cons_none hstep]
            rfl
          · rw [utf8DecodeIgnore_cons_none hstep]
            refine utf8DecodeIgnore_contBytes _ ?_
            intro x hx
            simp at hx
            rcases hx with hx | hx <;> omega

theorem utf8DecodeIgnore_take_lt (s : List Nat) (h : ∀ c ∈ s, ValidScalar c) :
    ∀ q, q < (utf8Encode s).length →
      (utf8DecodeIgnore ((utf8Encode s).take q)).length < s.length := by
  induction s with
  | nil =>
    intro q hq
    simp [utf8Encode] at hq
  | cons c cs ih =>
    intro q hq
    simp only [utf8Encode] at hq ⊢
    by_cases hcase : q < (utf8EncodeChar c).length
    · rw [List.take_append_eq_append_take,
        Nat.sub_eq_zero_of_le (Nat.le_of_lt hcase), List.take_zero,
        List.append_nil,
        utf8DecodeIgnore_encodeChar_take c (h c (by simp)) q hcase]
      simp
    · push_neg at hcase
      rw [List.take_append_eq_append_take, List.take_of_length_le hcase,
        utf8DecodeIgnore_encodeChar c (h c (by simp))]
      simp only [List.length_cons]
      have hq2 : q - (utf8EncodeChar c).length < (utf8Encode cs).length := by
        rw [List.length_append] at hq
        omega
      have := ih (fun x hx => h x (by simp [hx])) (q - (utf8EncodeChar c).length) hq2
      omega

/-! ### Facts about the allocator -/

theorem allocLoop_eq (needed : Nat) : ∀ (fuel current : Nat) (acc : List Nat),
    allocLoop needed fuel current acc =
      acc ++ ((List.range' current fuel).filter
        fun b => !((b + 1) % 4 == 0)).take (needed - acc.length) := by
  intro fuel
  induction fuel with
  | zero =>
    intro current acc
    simp [allocLoop]
  | succ f ih =>
    intro current acc
    rw [List.range'_succ]
    by_cases hlen : acc.length < needed
    · simp only [allocLoop, if_pos hlen]
      by_cases htr : (current + 1) % 4 = 0
      · rw [if_pos htr, ih, List.filter_cons_of_neg (by simpa using htr)]
      · rw [if_neg htr, ih, List.filter_cons_of_pos (by simpa using htr)]
        obtain ⟨m, hm⟩ : ∃ m, needed - acc.length = m + 1 :=
          ⟨needed - acc.length - 1, by omega⟩
        rw [hm, List.take_succ_cons, List.length_append]
        simp only [List.length_cons, List.length_nil]
        have hm2 : needed - (acc.length + 1) = m := by omega
        rw [hm2, List.append_assoc, List.singleton_append]
    · simp only [allocLoop, if_neg hlen]
      rw [Nat.sub_eq_zero_of_le (Nat.le_of_not_lt hlen), List.take_zero,
        List.append_nil]

/-- The ordered list of all non-reserved blocks from `start` (inclusive)
up to the device end; proof-side description of the allocator walk. -/
def walkList (start mb : Nat) : List Nat :=
  (List.range' start (mb - start)).filter fun b => !((b + 1) % 4 == 0)

theorem allocBlocks_eq (mb needed start : Nat) :
    allocBlocks mb needed start = (walkList start mb).take needed := by
  unfold allocBlocks walkList
  rw [allocLoop_eq]
  simp

theorem walkList_pairwise (start mb : Nat) :
    (walkList start mb).Pairwise (· < ·) := by
  refine List.Pairwise.sublist (List.filter_sublist _) ?_
  rw [List.range'_eq_map_range]
  exact List.Pairwise.map _ (fun a b h => by omega) (List.pairwise_lt_range _)

theorem walkList_mem {start mb x : Nat} (h : x ∈ walkList start mb) :
    start ≤ x ∧ x < mb ∧ (x + 1) % 4 ≠ 0 := by
  unfold walkList at h
  have h1 := List.mem_of_mem_filter h
  have h2 := List.of_mem_filter h
  rw [List.mem_range'_1] at h1
  simp at h2
  omega

theorem walkList_mem_of (start mb x : Nat) (h1 : start ≤ x) (h2 : x < mb)
    (h3 : (x + 1) % 4 ≠ 0) : x ∈ walkList start mb := by
  unfold walkList
  refine List.mem_filter.mpr ⟨List.mem_range'_1.mpr ⟨h1, by omega⟩, by simpa⟩

theorem walkList_get_mono (start mb i j : Nat)
    (hij : i < j) (hj : j < (walkList start mb).length) :
    (walkList start mb).get ⟨i, by omega⟩ < (walkList start mb).get ⟨j, hj⟩ :=
  List.pairwise_iff_get.mp (walkList_pairwise start mb) ⟨i, by omega⟩ ⟨j, hj⟩ hij

theorem walkList_gap (start mb i b : Nat)
    (hi : i + 1 < (walkList start mb).length)
    (h1 : (walkList start mb).get ⟨i, by omega⟩ < b)
    (h2 : b < (walkList start mb).get ⟨i + 1, hi⟩) : (b + 1) % 4 = 0 := by
  by_contra hb
  have hmem : b ∈ walkList start mb := by
    have hlo := walkList_mem (List.get_mem (walkList start mb) i (by omega))
    have hhi := walkList_mem (List.get_mem (walkList start mb) (i + 1) hi)
    exact walkList_mem_of start mb b (by omega) (by omega) hb
  obtain ⟨⟨m, hm⟩, hmb⟩ := List.mem_iff_get.mp hmem
  have hmi : i < m := by
    by_contra hle
    rcases Nat.lt_or_ge m i with hc | hc
    · have := walkList_get_mono start mb m i hc (by omega)
      omega
    · have hmi2 : m = i := by omega
      subst hmi2
      rw [hmb] at h1
      omega
  have hmi3 : m < i + 1 := by
    by_contra hle
    rcases Nat.lt_or_ge (i + 1) m with hc | hc
    · have := walkList_get_mono start mb (i + 1) m hc hm
      rw [hmb] at this
      omega
    · have hmi4 : m = i + 1 := by omega
      subst hmi4
      rw [hmb] at h2
      omega
  omega

theorem walkList_get_zero {start mb : Nat} (h1 : start < mb)
    (h2 : (start + 1) % 4 ≠ 0) :
    ∃ hl : 0 < (walkList start mb).length,
      (walkList start mb).get ⟨0, hl⟩ = start := by
  unfold walkList
  obtain ⟨m, hm⟩ : ∃ m, mb - start = m + 1 := ⟨mb - start - 1, by omega⟩
  rw [hm, List.range'_succ, List.filter_cons_of_pos (by simpa using h2)]
  exact ⟨by simp, rfl⟩

/-! ### Facts about applyWrites -/

theorem applyWrites_append (d : Nat → List Nat) (ws1 ws2 : List (Nat × List Nat)) :
    applyWrites d (ws1 ++ ws2) = applyWrites (applyWrites d ws1) ws2 := by
  unfold applyWrites
  rw [List.foldl_append]

theorem applyWrites_notMem (d : Nat → List Nat) (ws : List (Nat × List Nat))
    (b : Nat) (h : ∀ p ∈ ws, p.1 ≠ b) : applyWrites d ws b = d b := by
  induction ws generalizing d with
  | nil => rfl
  | cons w ws ih =>
    show applyWrites (fun x => if x = w.1 then w.2 else d x) ws b = d b
    rw [ih _ (fun p hp => h p (by simp [hp]))]
    exact if_neg fun hb => h w (by simp) hb.symm

theorem applyWrites_getAt (d : Nat → List Nat) (ws1 : List (Nat × List Nat))
    (bi : Nat) (c : List Nat) (ws2 : List (Nat × List Nat))
    (h : ∀ p ∈ ws2, p.1 ≠ bi) :
    applyWrites d (ws1 ++ (bi, c) :: ws2) bi = c := by
  rw [show ws1 ++ (bi, c) :: ws2 = (ws1 ++ [(bi, c)]) ++ ws2 by simp,
    applyWrites_append, applyWrites_notMem _ _ _ h, applyWrites_append]
  show (fun x => if x = bi then c else applyWrites d ws1 x) bi = c
  simp

/-! ### Facts about the encoded data layout -/

theorem paddedData_facts (s : List Nat) :
    (paddedData s).length % 16 = 0 ∧
    4 + (utf8Encode s).length ≤ (paddedData s).length ∧
    (paddedData s).length < 4 + (utf8Encode s).length + 16 := by
  unfold paddedData headerBytes
  simp only [List.length_append, List.length_cons, List.length_nil,
    List.length_replicate]
  omega

theorem paddedData_length_eq (s : List Nat) :
    (paddedData s).length = 16 * chunksNeeded s := by
  have h := (paddedData_facts s).1
  unfold chunksNeeded
  omega

theorem chunksNeeded_pos (s : List Nat) : 1 ≤ chunksNeeded s := by
  have h1 := paddedData_length_eq s
  have h2 := (paddedData_facts s).2.1
  omega

theorem paddedData_drop4 (s : List Nat) :
    (paddedData s).drop 4 =
      utf8Encode s ++
        List.replicate ((paddedData s).length - 4 - (utf8Encode s).length) 0 := by
  unfold paddedData headerBytes
  simp [List.length_append, List.length_replicate]

/-- The 16-byte chunk written to the i-th allocated block. -/
def chunkAt (s : List Nat) (i : Nat) : List Nat :=
  ((paddedData s).drop (i * 16)).take 16

/-- The raw bytes `read_string` has accumulated after the first block
and `j` further payload blocks. -/
def rawAt (s : List Nat) (j : Nat) : List Nat :=
  ((paddedData s).drop 4).take (12 + 16 * j)

theorem rawAt_append (s : List Nat) (j : Nat) :
    rawAt s j ++ chunkAt s (j + 1) = rawAt s (j + 1) := by
  unfold rawAt chunkAt
  have h1 : 12 + 16 * (j + 1) = (12 + 16 * j) + 16 := by omega
  rw [h1]
  conv_rhs => rw [List.take_add, List.drop_drop]
  have h2 : 4 + (12 + 16 * j) = (j + 1) * 16 := by omega
  rw [h2]

theorem rawAt_last (s : List Nat) :
    rawAt s (chunksNeeded s - 1) = (paddedData s).drop 4 := by
  unfold rawAt
  have hk := chunksNeeded_pos s
  have hl := paddedData_length_eq s
  refine List.take_of_length_le ?_
  rw [List.length_drop]
  omega

theorem decode_drop4 (s : List Nat) (hv : ∀ c ∈ s, ValidScalar c) :
    utf8DecodeIgnore ((paddedData s).drop 4) =
      s ++ List.replicate ((paddedData s).length - 4 - (utf8Encode s).length) 0 := by
  rw [paddedData_drop4, utf8DecodeIgnore_encode_append s hv,
    utf8DecodeIgnore_replicate_zero]

/-- Whatever bytes follow the record, decoding the record bytes plus
that tail and truncating to the character count recovers the string:
the payload ends on a character boundary, so the padding zeros and any
trailing junk only add characters past the cut. -/
theorem decode_drop4_take (s : List Nat) (hv : ∀ c ∈ s, ValidScalar c)
    (tl : List Nat) :
    (utf8DecodeIgnore ((paddedData s).drop 4 ++ tl)).take s.length = s := by
  rw [paddedData_drop4, List.append_assoc, utf8DecodeIgnore_encode_append s hv,
    utf8DecodeIgnore_replicate_zero_append, List.take_left]

theorem decode_rawAt_lt (s : List Nat) (hv : ∀ c ∈ s, ValidScalar c) (j : Nat)
    (hj : j + 1 < chunksNeeded s) :
    (utf8DecodeIgnore (rawAt s j)).length < s.length := by
  have hl := paddedData_length_eq s
  have hf := paddedData_facts s
  have henc : 12 + 16 * j < (utf8Encode s).length := by omega
  unfold rawAt
  rw [paddedData_drop4, List.take_append_eq_append_take,
    Nat.sub_eq_zero_of_le (Nat.le_of_lt henc), List.take_zero, List.append_nil]
  exact utf8DecodeIgnore_take_lt s hv _ henc

/-! ### Behaviour of the read loop -/

/-- Once the accumulator already holds the whole record, the read loop
adds at most one further block before stopping, and the truncated
decode of its result is unchanged — on any device: an all-zero next
block stops collection, and any other block is appended and immediately
pushes the decoded count past the target. -/
theorem readLoop_full_take (d : Nat → List Nat) (cc cap : Nat)
    (s0 : List Nat) (hs0 : s0.length = cc) :
    ∀ (fuel current br cd : Nat) (raw : List Nat),
      cc ≤ (utf8DecodeIgnore raw).length →
      (∀ tl, (utf8DecodeIgnore (raw ++ tl)).take cc = s0) →
      (utf8DecodeIgnore (readLoop d cc cap fuel current br cd raw)).take cc =
        s0 := by
  intro fuel
  induction fuel with
  | zero =>
    intro current br cd raw hcc htl
    have h0 := htl []
    rwa [List.append_nil] at h0
  | succ f ih =>
    intro current br cd raw hcc htl
    simp only [readLoop]
    split_ifs with hguard htr hzero hfull
    · exact ih (current + 1) br cd raw hcc htl
    · have h0 := htl []
      rwa [List.append_nil] at h0
    · exact htl (d current)
    · exfalso
      have h0 := htl (d current)
      have hlen := congrArg List.length h0
      rw [List.length_take, hs0] at hlen
      omega
    · have h0 := htl []
      rwa [List.append_nil] at h0

theorem readLoop_skip (d : Nat → List Nat) (cc cap mb t : Nat) :
    ∀ (n current br cd : Nat) (raw : List Nat), t - current = n →
      current ≤ t → t ≤ mb →
      (∀ b, current ≤ b → b < t → (b + 1) % 4 = 0) →
      cd < cc → br < cap →
      readLoop d cc cap (mb - current) current br cd raw =
        readLoop d cc cap (mb - t) t br cd raw := by
  intro n
  induction n with
  | zero =>
    intro current br cd raw hn hct _ _ _ _
    have : current = t := by omega
    subst this
    rfl
  | succ n ih =>
    intro current br cd raw hn hct htm hgap hcd hbr
    have hlt : current < t := by omega
    have hmb : current < mb := by omega
    obtain ⟨f, hf⟩ : ∃ f, mb - current = f + 1 := ⟨mb - current - 1, by omega⟩
    rw [hf]
    simp only [readLoop]
    rw [if_pos ⟨hcd, hbr⟩, if_pos (hgap current le_rfl hlt)]
    have hf2 : f = mb - (current + 1) := by omega
    rw [hf2]
    exact ih (current + 1) br cd raw (by omega) (by omega) htm
      (fun b hb hbt => hgap b (by omega) hbt) hcd hbr

/-- The heart of the round trip: if the device holds the record's chunks
at the strictly increasing non-trailer blocks `a 0 < a 1 < ...` (with
only trailer blocks in between), then from the state just after
consuming block `a j` the read loop's result decodes, truncated to the
character count, to exactly the original string — whatever the device
holds elsewhere. -/
theorem readLoop_main (D : Nat → List Nat) (s : List Nat) (mb cap : Nat)
    (a : Nat → Nat)
    (hvalid : ∀ c ∈ s, ValidScalar c)
    (hmono : ∀ i j, i < j → j < chunksNeeded s → a i < a j)
    (hnt : ∀ i, i < chunksNeeded s → (a i + 1) % 4 ≠ 0)
    (hlt : ∀ i, i < chunksNeeded s → a i < mb)
    (hgapA : ∀ i b, i + 1 < chunksNeeded s → a i < b → b < a (i + 1) →
      (b + 1) % 4 = 0)
    (hDat : ∀ i, i < chunksNeeded s → D (a i) = chunkAt s i)
    (hcap2 : chunksNeeded s ≤ 1 + cap) :
    ∀ m j cd, chunksNeeded s - 1 - j = m → j < chunksNeeded s →
      cd < s.length →
      (utf8DecodeIgnore (readLoop D s.length cap (mb - (a j + 1)) (a j + 1) j
        cd (rawAt s j))).take s.length = s := by
  intro m
  induction m with
  | zero =>
    intro j cd hm hjk hcd
    have hj : j = chunksNeeded s - 1 := by omega
    subst hj
    rw [rawAt_last]
    apply readLoop_full_take D s.length cap s rfl
    · rw [decode_drop4 s hvalid]
      simp only [List.length_append, List.length_replicate]
      omega
    · intro tl
      exact decode_drop4_take s hvalid tl
  | succ m ih =>
    intro j cd hm hjk hcd
    have hj1 : j + 1 < chunksNeeded s := by omega
    have hlt1 := hlt (j + 1) hj1
    rw [readLoop_skip D s.length cap mb (a (j + 1))
      (a (j + 1) - (a j + 1)) (a j + 1) j cd (rawAt s j) rfl
      (hmono j (j + 1) (by omega) hj1)
      (by omega)
      (fun b hb1 hb2 => hgapA j b hj1 (by omega) hb2)
      hcd (by omega)]
    obtain ⟨f, hf⟩ : ∃ f, mb - a (j + 1) = f + 1 := ⟨mb - a (j + 1) - 1, by omega⟩
    rw [hf]
    simp only [readLoop]
    rw [if_pos ⟨hcd, by omega⟩, if_neg (hnt (j + 1) hj1), hDat (j + 1) hj1]
    rw [if_neg (by
      intro hcon
      have := decode_rawAt_lt s hvalid j hj1
      have h2x := hcon.2
      omega)]
    rw [rawAt_append s j]
    rcases (by omega : j + 2 = chunksNeeded s ∨ j + 2 < chunksNeeded s) with
      hend | hmid
    · have hlast : j + 1 = chunksNeeded s - 1 := by omega
      rw [hlast, rawAt_last]
      rw [if_pos (by
        rw [decode_drop4 s hvalid]
        simp only [List.length_append, List.length_replicate]
        omega)]
      have hfin := decode_drop4_take s hvalid []
      rwa [List.append_nil] at hfin
    · have hlt2 := decode_rawAt_lt s hvalid (j + 1) (by omega)
      rw [if_neg (by omega)]
      have hf2 : f = mb - (a (j + 1) + 1) := by omega
      rw [hf2]
      exact ih (j + 1) (utf8DecodeIgnore (rawAt s (j + 1))).length
        (by omega) (by omega) (by omega)

/-- Format detection on a block starting with the 4-byte header of a
positive in-range character count takes the current-format branch. -/
theorem detectHeader_headerBytes (ml cl : Nat) (rest : List Nat)
    (h1 : 0 < cl) (h2 : cl ≤ ml) (h3 : cl < 16777216) :
    detectHeader ml (headerBytes cl ++ rest) = some (cl, 4) := by
  unfold detectHeader headerBytes
  simp only [List.cons_append, List.nil_append, List.getD_cons_zero,
    List.getD_cons_succ]
  rw [if_pos ⟨by omega, by omega, Or.inl (by omega)⟩]
  simp only [Option.some.injEq, Prod.mk.injEq]
  exact ⟨by omega, trivial⟩

theorem applyWrites_plan (D0 : Nat → List Nat) (k : Nat) (key : Nat → Nat)
    (val : Nat → List Nat)
    (hmono : ∀ i j, i < j → j < k → key i < key j) (j : Nat) (hj : j < k) :
    applyWrites D0 ((List.range k).map fun i => (key i, val i)) (key j) =
      val j := by
  have hLlen : ((List.range k).map fun i => (key i, val i)).length = k := by
    simp
  have hjL : j < ((List.range k).map fun i => (key i, val i)).length := by
    omega
  have hgetj : ((List.range k).map fun i => (key i, val i))[j] =
      (key j, val j) := by
    rw [List.getElem_map, List.getElem_range]
  have hdecomp : (List.range k).map (fun i => (key i, val i)) =
      ((List.range k).map fun i => (key i, val i)).take j ++
        (key j, val j) ::
          ((List.range k).map fun i => (key i, val i)).drop (j + 1) := by
    conv_lhs => rw [← List.take_append_drop j
      ((List.range k).map fun i => (key i, val i))]
    rw [List.drop_eq_getElem_cons hjL, hgetj]
  rw [hdecomp]
  apply applyWrites_getAt
  intro p hp
  rw [List.mem_iff_getElem] at hp
  obtain ⟨m, hm, hpm⟩ := hp
  have hmlen : j + 1 + m < k := by
    rw [List.length_drop] at hm
    omega
  rw [List.getElem_drop] at hpm
  have hval : ((List.range k).map fun i => (key i, val i))[j + 1 + m] =
      (key (j + 1 + m), val (j + 1 + m)) := by
    rw [List.getElem_map, List.getElem_range]
  rw [hval] at hpm
  rw [← hpm]
  have := hmono j (j + 1 + m) (by omega) hmlen
  simp only [ne_eq]
  omega

theorem applyWrites_plan_out (D0 : Nat → List Nat) (k : Nat) (key : Nat → Nat)
    (val : Nat → List Nat) (b : Nat) (hb : ∀ i, i < k → b ≠ key i) :
    applyWrites D0 ((List.range k).map fun i => (key i, val i)) b = D0 b := by
  apply applyWrites_notMem
  intro p hp
  rw [List.mem_map] at hp
  obtain ⟨i, hi, hpe⟩ := hp
  rw [List.mem_range] at hi
  rw [← hpe]
  exact fun he => hb i hi he.symm

/-- `paddedData` starts with the header bytes. -/
theorem paddedData_head (s : List Nat) :
    ∃ t, paddedData s = headerBytes s.length ++ t := by
  refine ⟨utf8Encode s ++ List.replicate
    ((16 - (headerBytes s.length ++ utf8Encode s).length % 16) % 16) 0, ?_⟩
  unfold paddedData
  rw [List.append_assoc]

/-- C1 (amended): round trip.  For every non-empty string of Unicode
scalar values with `len(s) ≤ maxLength`, written successfully by
`write_string` at a valid non-reserved start block of a device with any
prior contents, whose record needs at most `1 + min 32 (mb - sb)`
blocks (the cap `read_string` puts on its continuation walk),
`read_string` returns exactly the original string.  (The claim as
stated fails for the empty string and for records beyond the read cap;
the counterexample demonstrates both.) -/
theorem write_read_roundtrip (d0 : Nat → List Nat) (mb sb ml : Nat)
    (s : List Nat) (plan : List (Nat × List Nat))
    (hvalid : ∀ c ∈ s, ValidScalar c) (hne : s ≠ [])
    (hsb : (sb + 1) % 4 ≠ 0)
    (hcap : chunksNeeded s ≤ 1 + min 32 (mb - sb))
    (hw : write_string mb sb ml s = some plan) :
    read_string (write_string_effect d0 mb sb ml s) mb sb ml =
      some s := by
  have heff : write_string_effect d0 mb sb ml s =
      applyWrites d0 plan := by
    unfold write_string_effect
    rw [hw]
  have hadj : adjStart sb = sb := by
    unfold adjStart
    rw [if_neg hsb]
  simp only [write_string] at hw
  rw [hadj] at hw
  split_ifs at hw with hml hsb0 hvail
  rw [Option.some_inj] at hw
  subst hw
  rw [heff]
  have hk1 : 1 ≤ chunksNeeded s := chunksNeeded_pos s
  have havail : allocBlocks mb (chunksNeeded s) sb =
      (walkList sb mb).take (chunksNeeded s) := allocBlocks_eq mb _ sb
  have hWlen : chunksNeeded s ≤ (walkList sb mb).length := by
    rw [havail, List.length_take] at hvail
    omega
  have hgetA : ∀ i, i < chunksNeeded s →
      (allocBlocks mb (chunksNeeded s) sb).getD i 0 =
        (walkList sb mb).getD i 0 := by
    intro i hi
    rw [havail,
      List.getD_eq_getElem _ _ (by rw [List.length_take]; omega),
      List.getElem_take, List.getD_eq_getElem _ _ (by omega)]
  have hmonoA : ∀ i j, i < j → j < chunksNeeded s →
      (walkList sb mb).getD i 0 < (walkList sb mb).getD j 0 := by
    intro i j hij hj
    rw [List.getD_eq_getElem _ _ (by omega),
      List.getD_eq_getElem _ _ (by omega)]
    exact walkList_get_mono sb mb i j hij (by omega)
  have hntA : ∀ i, i < chunksNeeded s →
      ((walkList sb mb).getD i 0 + 1) % 4 ≠ 0 := by
    intro i hi
    rw [List.getD_eq_getElem _ _ (by omega)]
    have hblen : i < (walkList sb mb).length := by omega
    exact (walkList_mem (List.getElem_mem hblen)).2.2
  have hltA : ∀ i, i < chunksNeeded s → (walkList sb mb).getD i 0 < mb := by
    intro i hi
    rw [List.getD_eq_getElem _ _ (by omega)]
    have hblen : i < (walkList sb mb).length := by omega
    exact (walkList_mem (List.getElem_mem hblen)).2.1
  have hgapA : ∀ i b, i + 1 < chunksNeeded s →
      (walkList sb mb).getD i 0 < b → b < (walkList sb mb).getD (i + 1) 0 →
        (b + 1) % 4 = 0 := by
    intro i b hi h1 h2
    rw [List.getD_eq_getElem _ _ (by omega)] at h1
    rw [List.getD_eq_getElem _ _ (by omega)] at h2
    exact walkList_gap sb mb i b (by omega) h1 h2
  have hsbltmb : sb < mb := by
    have hb0 : 0 < (walkList sb mb).length := by omega
    have := walkList_mem (List.getElem_mem hb0)
    omega
  have hzeroA : (walkList sb mb).getD 0 0 = sb := by
    obtain ⟨hl, hget⟩ := walkList_get_zero hsbltmb hsb
    rw [List.getD_eq_getElem _ _ (by omega)]
    exact hget
  have hplan : (List.range (chunksNeeded s)).map
        (fun i => ((allocBlocks mb (chunksNeeded s) sb).getD i 0,
          ((paddedData s).drop (i * 16)).take 16)) =
      (List.range (chunksNeeded s)).map
        (fun i => ((walkList sb mb).getD i 0, chunkAt s i)) := by
    apply List.map_congr_left
    intro i hi
    rw [List.mem_range] at hi
    rw [hgetA i hi]
    rfl
  rw [hplan]
  have hDat : ∀ j, j < chunksNeeded s →
      applyWrites d0 ((List.range (chunksNeeded s)).map
          (fun i => ((walkList sb mb).getD i 0, chunkAt s i)))
        ((walkList sb mb).getD j 0) = chunkAt s j :=
    fun j hj => applyWrites_plan d0 (chunksNeeded s)
      (fun i => (walkList sb mb).getD i 0) (chunkAt s) hmonoA j hj
  obtain ⟨t, ht⟩ := paddedData_head s
  have htake16 : (paddedData s).take 16 = headerBytes s.length ++ t.take 12 := by
    rw [ht, List.take_append_eq_append_take,
      List.take_of_length_le (by simp [headerBytes])]
    have hhl : (headerBytes s.length).length = 4 := rfl
    rw [hhl]
  have hcl24 : s.length < 16777216 := by
    have h1 := utf8Encode_length_ge s
    have h2 := paddedData_length_eq s
    have h3 := (paddedData_facts s).2.1
    omega
  have hne0 : 0 < s.length := List.length_pos.mpr hne
  have hdet : detectHeader ml ((paddedData s).take 16) = some (s.length, 4) := by
    rw [htake16]
    exact detectHeader_headerBytes ml s.length _ hne0 (by omega) hcl24
  have hDsb : applyWrites d0 ((List.range (chunksNeeded s)).map
        (fun i => ((walkList sb mb).getD i 0, chunkAt s i))) sb =
      (paddedData s).take 16 := by
    have h0 := hDat 0 (by omega)
    rw [hzeroA] at h0
    rw [h0]
    rfl
  simp only [read_string, hDsb, hdet]
  rw [if_neg (by omega), if_neg (by omega)]
  have hraw0 : (((paddedData s).take 16).drop 4).take (16 - 4) = rawAt s 0 := by
    rw [List.drop_take, List.take_take]
    unfold rawAt
    norm_num
  rw [hraw0]
  have hmain := readLoop_main
    (applyWrites d0 ((List.range (chunksNeeded s)).map
      (fun i => ((walkList sb mb).getD i 0, chunkAt s i))))
    s mb (min 32 (mb - sb)) (fun i => (walkList sb mb).getD i 0)
    hvalid hmonoA hntA hltA hgapA hDat (by omega)
    (chunksNeeded s - 1) 0 0 (by omega) (by omega) (by omega)
  simp only [hzeroA] at hmain
  rw [hmain]

/-! ### Helpers for the claim theorems -/

theorem adjStart_nontrailer (sb : Nat) : (adjStart sb + 1) % 4 ≠ 0 := by
  unfold adjStart
  split_ifs with h <;> omega

theorem adjStart_pos (sb : Nat) (h : sb ≠ 0) : 1 ≤ adjStart sb := by
  unfold adjStart
  split_ifs <;> omega

theorem walkList_getD_zero (sb mb : Nat) (hlt : sb < mb)
    (hnt : (sb + 1) % 4 ≠ 0) : (walkList sb mb).getD 0 0 = sb := by
  obtain ⟨hl, hget⟩ := walkList_get_zero hlt hnt
  rw [List.getD_eq_getElem _ _ (by omega)]
  exact hget

theorem walkList_pos_lt (sb mb : Nat) (h : 0 < (walkList sb mb).length) :
    sb < mb := by
  have := walkList_mem (List.getElem_mem h)
  omega

/-- What a successful `write_string` call tells us: the pre-flight
checks passed and the plan pairs the walk blocks from the (possibly
advanced) start with the consecutive 16-byte chunks. -/
theorem write_string_some_eq (mb sb ml : Nat) (s : List Nat)
    (plan : List (Nat × List Nat)) (hw : write_string mb sb ml s = some plan) :
    s.length ≤ ml ∧ sb ≠ 0 ∧
      chunksNeeded s ≤ (walkList (adjStart sb) mb).length ∧
      plan = (List.range (chunksNeeded s)).map
        (fun i => ((walkList (adjStart sb) mb).getD i 0, chunkAt s i)) := by
  simp only [write_string] at hw
  split_ifs at hw with hml hsb0 hvail
  rw [Option.some_inj] at hw
  have hWlen : chunksNeeded s ≤ (walkList (adjStart sb) mb).length := by
    rw [allocBlocks_eq, List.length_take] at hvail
    omega
  refine ⟨by omega, hsb0, hWlen, ?_⟩
  rw [← hw]
  apply List.map_congr_left
  intro i hi
  rw [List.mem_range] at hi
  rw [allocBlocks_eq,
    List.getD_eq_getElem _ _ (by rw [List.length_take]; omega),
    List.getElem_take, List.getD_eq_getElem _ _ (by omega)]
  rfl

theorem detectHeader_zeros (ml : Nat) :
    detectHeader ml (List.replicate 16 0) = none := by
  have hz : List.replicate 16 0 =
      ([0, 0, 0, 0, 0, 0, 0, 0, 0, 0, 0, 0, 0, 0, 0, 0] : List Nat) := rfl
  rw [hz]
  unfold detectHeader
  simp

theorem read_string_noHeader (d : Nat → List Nat) (mb sb ml : Nat)
    (h : detectHeader ml (d sb) = none) : read_string d mb sb ml = none := by
  simp only [read_string, h]

/-- The first planned block of a successful write is the (possibly
advanced) start block. -/
theorem plan_head_start (mb sb ml : Nat) (s : List Nat)
    (plan : List (Nat × List Nat)) (hw : write_string mb sb ml s = some plan) :
    plan ≠ [] ∧ (plan.getD 0 (0, [])).1 = adjStart sb := by
  obtain ⟨hml, hsb0, hWlen, hplan⟩ := write_string_some_eq mb sb ml s plan hw
  have hk1 := chunksNeeded_pos s
  have hstart : adjStart sb < mb := walkList_pos_lt _ _ (by omega)
  constructor
  · rw [hplan]
    intro hcon
    have hlen := congrArg List.length hcon
    simp at hlen
    omega
  · rw [hplan, List.getD_eq_getElem _ _ (by simp; omega), List.getElem_map,
      List.getElem_range]
    show (walkList (adjStart sb) mb).getD 0 0 = adjStart sb
    exact walkList_getD_zero _ _ hstart (adjStart_nontrailer sb)

/-! ### Claim theorems -/

set_option maxRecDepth 100000 in
/-- C1 counterexample, refuting the claim as stated at two concrete
inputs.  First, the empty string: `write_string` succeeds, storing a
single block with header value 0, but `read_string` finds no valid
header (its format detection requires a positive length) and returns
`none` rather than the empty string.  Second, the read cap: 600 times
the character 'a' at start block 1 of a 64-block card is written
successfully across 38 blocks, but `read_string` stops after
`min(32, 64 - 1) = 32` continuation blocks and returns only the first
524 characters instead of the string. -/
theorem roundtrip_as_stated_cex :
    (write_string 64 4 3000 ([] : List Nat) =
        some [(4, List.replicate 16 0)] ∧
      read_string (write_string_effect zeroDevice 64 4 3000 []) 64 4 3000 =
        none) ∧
      ((write_string 64 1 3000 (List.replicate 600 97)).map List.length =
          some 38 ∧
        read_string (write_string_effect zeroDevice 64 1 3000
            (List.replicate 600 97)) 64 1 3000 =
          some (List.replicate 524 97) ∧
        List.replicate 524 97 ≠ List.replicate 600 97) := by
  refine ⟨⟨by decide, by decide⟩, by decide, by decide, by decide⟩

/-- C1 witness: round trip of the 2-character string "Hi" written at
block 4 of a blank 64-block card. -/
theorem write_read_roundtrip_witness :
    read_string (write_string_effect zeroDevice 64 4 3000 [72, 105]) 64 4
      3000 = some [72, 105] :=
  write_read_roundtrip zeroDevice 64 4 3000 [72, 105]
    [(4, [0, 0, 0, 2, 72, 105, 0, 0, 0, 0, 0, 0, 0, 0, 0, 0])]
    (by decide) (by decide) (by decide) (by decide) (by decide)

/-- C2: every allocation plan produced by a successful `write_string`
avoids the reserved blocks: no planned index is 0 or a trailer block
(`(i+1) % 4 == 0`), every planned index is below the device block
count, and the planned indices are strictly increasing. -/
theorem plan_reserved_exclusion (mb sb ml : Nat) (s : List Nat)
    (plan : List (Nat × List Nat)) (hw : write_string mb sb ml s = some plan) :
    (∀ b ∈ plan.map Prod.fst, b ≠ 0 ∧ (b + 1) % 4 ≠ 0 ∧ b < mb) ∧
      (plan.map Prod.fst).Pairwise (· < ·) := by
  obtain ⟨hml, hsb0, hWlen, hplan⟩ := write_string_some_eq mb sb ml s plan hw
  subst hplan
  rw [List.map_map]
  constructor
  · intro b hb
    rw [List.mem_map] at hb
    obtain ⟨i, hi, hbe⟩ := hb
    rw [List.mem_range] at hi
    have hblen : i < (walkList (adjStart sb) mb).length := by omega
    have hbe2 : (walkList (adjStart sb) mb).getD i 0 = b := hbe
    rw [← hbe2, List.getD_eq_getElem _ _ hblen]
    have hmem := walkList_mem (List.getElem_mem hblen)
    have hpos := adjStart_pos sb hsb0
    omega
  · rw [List.pairwise_iff_get]
    intro i j hij
    have hij2 : (i : Nat) < (j : Nat) := hij
    have hjk : j.1 < chunksNeeded s := by
      have := j.isLt
      simpa using this
    have h1 : ((List.range (chunksNeeded s)).map
        (Prod.fst ∘ fun i => ((walkList (adjStart sb) mb).getD i 0,
          chunkAt s i))).get i = (walkList (adjStart sb) mb).getD i.1 0 := by
      rw [List.get_eq_getElem, List.getElem_map, List.getElem_range]
      rfl
    have h2 : ((List.range (chunksNeeded s)).map
        (Prod.fst ∘ fun i => ((walkList (adjStart sb) mb).getD i 0,
          chunkAt s i))).get j = (walkList (adjStart sb) mb).getD j.1 0 := by
      rw [List.get_eq_getElem, List.getElem_map, List.getElem_range]
      rfl
    have hb1 : (i : Nat) < (walkList (adjStart sb) mb).length := by omega
    have hb2 : (j : Nat) < (walkList (adjStart sb) mb).length := by omega
    rw [h1, h2, List.getD_eq_getElem _ _ hb1, List.getD_eq_getElem _ _ hb2]
    exact walkList_get_mono _ _ i.1 j.1 hij2 hb2

/-- C2 witness: the plan for "Hi" at block 4 of a 64-block card. -/
theorem plan_reserved_exclusion_witness :
    (∀ b ∈ ([(4, [0, 0, 0, 2, 72, 105, 0, 0, 0, 0, 0, 0, 0, 0, 0, 0])] :
        List (Nat × List Nat)).map Prod.fst,
      b ≠ 0 ∧ (b + 1) % 4 ≠ 0 ∧ b < 64) ∧
      (([(4, [0, 0, 0, 2, 72, 105, 0, 0, 0, 0, 0, 0, 0, 0, 0, 0])] :
        List (Nat × List Nat)).map Prod.fst).Pairwise (· < ·) :=
  plan_reserved_exclusion 64 4 3000 [72, 105]
    [(4, [0, 0, 0, 2, 72, 105, 0, 0, 0, 0, 0, 0, 0, 0, 0, 0])] (by decide)

/-- C3 (code bug): encoding the empty string at a valid non-reserved
start block produces the claimed single-block write (header value 0,
all-zero padding), but decoding it fails: `read_string`'s format
detection requires a positive length, so it returns `none` instead of
the empty string, and its own `char_count == 0` branch is dead code. -/
theorem empty_string_write_and_failed_read (mb sb ml : Nat)
    (plan : List (Nat × List Nat)) (hsb : (sb + 1) % 4 ≠ 0)
    (hw : write_string mb sb ml [] = some plan) :
    plan = [(sb, List.replicate 16 0)] ∧
      read_string (write_string_effect zeroDevice mb sb ml []) mb sb ml =
        none := by
  obtain ⟨hml, hsb0, hWlen, hplan⟩ := write_string_some_eq mb sb ml [] plan hw
  have hadj : adjStart sb = sb := by
    unfold adjStart
    rw [if_neg hsb]
  rw [hadj] at hWlen hplan
  have hk : chunksNeeded ([] : List Nat) = 1 := by decide
  rw [hk] at hWlen hplan
  have hsbmb : sb < mb := walkList_pos_lt sb mb (by omega)
  have hW0 : (walkList sb mb).getD 0 0 = sb := walkList_getD_zero sb mb hsbmb hsb
  have hchunk : chunkAt ([] : List Nat) 0 = List.replicate 16 0 := by decide
  have hplan2 : plan = [(sb, List.replicate 16 0)] := by
    rw [hplan]
    have hr1 : List.range 1 = [0] := rfl
    rw [hr1]
    simp only [List.map_cons, List.map_nil]
    rw [hW0, hchunk]
  refine ⟨hplan2, ?_⟩
  have heff : write_string_effect zeroDevice mb sb ml [] =
      applyWrites zeroDevice plan := by
    unfold write_string_effect
    rw [hw]
  rw [heff, hplan2]
  apply read_string_noHeader
  have hD : applyWrites zeroDevice [(sb, List.replicate 16 0)] sb =
      List.replicate 16 0 := by
    show (if sb = sb then List.replicate 16 0 else zeroDevice sb) =
      List.replicate 16 0
    rw [if_pos rfl]
  rw [hD]
  exact detectHeader_zeros ml

/-- C3 witness: the empty string at block 4 of a blank 64-block card. -/
theorem empty_string_write_and_failed_read_witness :
    ([(4, List.replicate 16 0)] : List (Nat × List Nat)) =
        [(4, List.replicate 16 0)] ∧
      read_string (write_string_effect zeroDevice 64 4 3000 []) 64 4 3000 =
        none :=
  empty_string_write_and_failed_read 64 4 3000 [(4, List.replicate 16 0)]
    (by decide) (by decide)

/-- C4 counterexample: on the 64-block device with start block 4, the
13-character "Hello, world!" does NOT fit in one block: the 4-byte
header plus 13 UTF-8 bytes is 17 bytes, so the allocation plan is
[4, 5], not [4] as the claim states. -/
theorem hello_world_plan_cex :
    (write_string 64 4 3000
        [72, 101, 108, 108, 111, 44, 32, 119, 111, 114, 108, 100, 33]).map
      (List.map Prod.fst) = some [4, 5] ∧ ([4, 5] : List Nat) ≠ [4] := by
  constructor
  · decide
  · decide

/-- C4 (amended): the concrete "Hello, world!" scenario with the
correct arithmetic: header bytes 00 00 00 0D, 17 data bytes zero-padded
to 32, allocation plan [4, 5], and decoding from block 4 returns
"Hello, world!". -/
theorem hello_world_scenario :
    write_string 64 4 3000
        [72, 101, 108, 108, 111, 44, 32, 119, 111, 114, 108, 100, 33] =
      some [(4, [0, 0, 0, 13, 72, 101, 108, 108, 111, 44, 32, 119, 111, 114,
          108, 100]),
        (5, [33, 0, 0, 0, 0, 0, 0, 0, 0, 0, 0, 0, 0, 0, 0, 0])] ∧
      read_string (write_string_effect zeroDevice 64 4 3000
          [72, 101, 108, 108, 111, 44, 32, 119, 111, 114, 108, 100, 33])
        64 4 3000 =
        some [72, 101, 108, 108, 111, 44, 32, 119, 111, 114, 108, 100, 33] := by
  constructor
  · decide
  · decide

/-- C5: the length header written by `write_string` stores the
character count (not the UTF-8 byte count), and `read_string`
truncates to exactly that count: the first conjunct shows the 4-byte
big-endian header of the first planned block always decodes to
`len(s)`; the second shows the concrete 5-character, 8-UTF-8-byte
string stores header value 5 and reads back as exactly those 5
characters. -/
theorem header_char_count_and_unicode :
    (∀ (mb sb ml : Nat) (s : List Nat) (plan : List (Nat × List Nat)),
        s.length < 4294967296 → write_string mb sb ml s = some plan →
        ((plan.getD 0 (0, [])).2.getD 0 0) * 16777216 +
          ((plan.getD 0 (0, [])).2.getD 1 0) * 65536 +
          ((plan.getD 0 (0, [])).2.getD 2 0) * 256 +
          ((plan.getD 0 (0, [])).2.getD 3 0) = s.length) ∧
      ((utf8Encode [97, 98, 233, 233, 233]).length = 8 ∧
        ([97, 98, 233, 233, 233] : List Nat).length = 5 ∧
        write_string 64 4 3000 [97, 98, 233, 233, 233] =
          some [(4, [0, 0, 0, 5, 97, 98, 195, 169, 195, 169, 195, 169,
            0, 0, 0, 0])] ∧
        read_string (write_string_effect zeroDevice 64 4 3000
            [97, 98, 233, 233, 233]) 64 4 3000 =
          some [97, 98, 233, 233, 233]) := by
  constructor
  · intro mb sb ml s plan hcl hw
    obtain ⟨hml, hsb0, hWlen, hplan⟩ := write_string_some_eq mb sb ml s plan hw
    have hk1 := chunksNeeded_pos s
    have hget0 : (plan.getD 0 (0, [])).2 = chunkAt s 0 := by
      rw [hplan, List.getD_eq_getElem _ _ (by simp; omega), List.getElem_map,
        List.getElem_range]
    obtain ⟨t, ht⟩ := paddedData_head s
    have hchunk0 : chunkAt s 0 = headerBytes s.length ++ t.take 12 := by
      show (paddedData s).take 16 = headerBytes s.length ++ t.take 12
      rw [ht, List.take_append_eq_append_take,
        List.take_of_length_le (by simp [headerBytes])]
      have hhl : (headerBytes s.length).length = 4 := rfl
      rw [hhl]
    have hg : ∀ j, j < 4 →
        (headerBytes s.length ++ t.take 12).getD j 0 =
          (headerBytes s.length).getD j 0 := by
      intro j hj
      exact List.getD_append _ _ _ j
        (by simp only [headerBytes, List.length_cons, List.length_nil]; omega)
    rw [hget0, hchunk0, hg 0 (by omega), hg 1 (by omega), hg 2 (by omega),
      hg 3 (by omega)]
    show s.length / 16777216 % 256 * 16777216 + s.length / 65536 % 256 * 65536 +
      s.length / 256 % 256 * 256 + s.length % 256 = s.length
    omega
  · refine ⟨by decide, by decide, by decide, by decide⟩

/-- C5 witness: the header of the plan for "Hi" decodes to 2. -/
theorem header_char_count_witness :
    ((([(4, [0, 0, 0, 2, 72, 105, 0, 0, 0, 0, 0, 0, 0, 0, 0, 0])] :
        List (Nat × List Nat)).getD 0 (0, [])).2.getD 0 0) * 16777216 +
      ((([(4, [0, 0, 0, 2, 72, 105, 0, 0, 0, 0, 0, 0, 0, 0, 0, 0])] :
        List (Nat × List Nat)).getD 0 (0, [])).2.getD 1 0) * 65536 +
      ((([(4, [0, 0, 0, 2, 72, 105, 0, 0, 0, 0, 0, 0, 0, 0, 0, 0])] :
        List (Nat × List Nat)).getD 0 (0, [])).2.getD 2 0) * 256 +
      ((([(4, [0, 0, 0, 2, 72, 105, 0, 0, 0, 0, 0, 0, 0, 0, 0, 0])] :
        List (Nat × List Nat)).getD 0 (0, [])).2.getD 3 0) =
      ([72, 105] : List Nat).length :=
  header_char_count_and_unicode.1 64 4 3000 [72, 105]
    [(4, [0, 0, 0, 2, 72, 105, 0, 0, 0, 0, 0, 0, 0, 0, 0, 0])]
    (by decide) (by decide)

/-- C6: a first block whose first 2 bytes encode a big-endian length
with 0 < L2 ≤ 1000, and whose first 4 bytes fail the 4-byte-format test
(0 < L4 ≤ maxLength with byte 0 zero), is detected as the legacy format
with header size 2 and character count L2, and `read_string` then
decodes along the legacy path (2-byte header skipped, 14 payload bytes
taken from the first block). -/
theorem legacy_two_byte_detection (ml : Nat) (bd : List Nat)
    (hpos : 0 < bd.getD 0 0 * 256 + bd.getD 1 0)
    (hle : bd.getD 0 0 * 256 + bd.getD 1 0 ≤ 1000)
    (h4 : ¬(0 < bd.getD 0 0 * 16777216 + bd.getD 1 0 * 65536 +
          bd.getD 2 0 * 256 + bd.getD 3 0 ∧
        bd.getD 0 0 * 16777216 + bd.getD 1 0 * 65536 + bd.getD 2 0 * 256 +
          bd.getD 3 0 ≤ ml ∧ bd.getD 0 0 = 0)) :
    detectHeader ml bd = some (bd.getD 0 0 * 256 + bd.getD 1 0, 2) ∧
      ∀ (d : Nat → List Nat) (mb sb : Nat), d sb = bd →
        bd.getD 0 0 * 256 + bd.getD 1 0 ≤ ml →
        read_string d mb sb ml =
          some ((utf8DecodeIgnore (readLoop d
              (bd.getD 0 0 * 256 + bd.getD 1 0) (min 32 (mb - sb))
              (mb - (sb + 1)) (sb + 1) 0 0
              ((bd.drop 2).take 14))).take
            (bd.getD 0 0 * 256 + bd.getD 1 0)) := by
  have hdet : detectHeader ml bd =
      some (bd.getD 0 0 * 256 + bd.getD 1 0, 2) := by
    unfold detectHeader
    rw [if_neg (fun hcon => h4 ⟨hcon.1, hcon.2.1, by
        rcases hcon.2.2 with h | h
        · exact h
        · exact h.1⟩),
      if_pos ⟨hpos, hle⟩]
  refine ⟨hdet, ?_⟩
  intro d mb sb hd hml
  simp only [read_string, hd, hdet]
  rw [if_neg (by omega), if_neg (by omega)]

/-- C6 witness: block bytes 01 05 00 ... detect as legacy length 261. -/
theorem legacy_two_byte_detection_witness :
    detectHeader 3000 [1, 5, 0, 0, 0, 0, 0, 0, 0, 0, 0, 0, 0, 0, 0, 0] =
      some (261, 2) :=
  (legacy_two_byte_detection 3000
    [1, 5, 0, 0, 0, 0, 0, 0, 0, 0, 0, 0, 0, 0, 0, 0]
    (by decide) (by decide) (by decide)).1

/-- C7: the three pre-flight failures of `write_string` — text longer
than maxLength, start block 0, or not enough non-reserved blocks — make
the call fail with no block written to the device. -/
theorem preflight_failure_no_writes (mb sb ml : Nat) (s : List Nat)
    (d : Nat → List Nat)
    (h : ml < s.length ∨ sb = 0 ∨
      (allocBlocks mb (chunksNeeded s) (adjStart sb)).length <
        chunksNeeded s) :
    write_string mb sb ml s = none ∧ write_string_effect d mb sb ml s = d := by
  have hw : write_string mb sb ml s = none := by
    simp only [write_string]
    split_ifs with h1 h2 h3
    · rfl
    · rfl
    · rfl
    · rcases h with h | h | h
      · exact absurd h h1
      · exact absurd h h2
      · exact absurd h h3
  refine ⟨hw, ?_⟩
  unfold write_string_effect
  rw [hw]

/-- C7 witness: writing at block 0 fails and leaves a blank card
unchanged. -/
theorem preflight_failure_no_writes_witness :
    write_string 64 0 3000 [72] = none ∧
      write_string_effect zeroDevice 64 0 3000 [72] = zeroDevice :=
  preflight_failure_no_writes 64 0 3000 [72] zeroDevice (Or.inr (Or.inl rfl))

/-- C8: when the start block is a trailer block, `write_string`
silently advances: any successful plan starts at block sb + 1, with no
error from the advance itself. -/
theorem trailer_start_advance (mb sb ml : Nat) (s : List Nat)
    (plan : List (Nat × List Nat)) (htr : (sb + 1) % 4 = 0)
    (hw : write_string mb sb ml s = some plan) :
    plan ≠ [] ∧ (plan.getD 0 (0, [])).1 = sb + 1 := by
  obtain ⟨hne, hhead⟩ := plan_head_start mb sb ml s plan hw
  refine ⟨hne, ?_⟩
  rw [hhead]
  unfold adjStart
  rw [if_pos htr]

/-- C8 witness: start block 7 (a trailer) advances to block 8. -/
theorem trailer_start_advance_witness :
    ([(8, [0, 0, 0, 2, 104, 105, 0, 0, 0, 0, 0, 0, 0, 0, 0, 0])] :
        List (Nat × List Nat)) ≠ [] ∧
      (([(8, [0, 0, 0, 2, 104, 105, 0, 0, 0, 0, 0, 0, 0, 0, 0, 0])] :
        List (Nat × List Nat)).getD 0 (0, [])).1 = 7 + 1 :=
  trailer_start_advance 64 7 3000 [104, 105]
    [(8, [0, 0, 0, 2, 104, 105, 0, 0, 0, 0, 0, 0, 0, 0, 0, 0])]
    (by decide) (by decide)

/-- C9 counterexample: `get_string_info` hard-codes the ceiling 10000
while `read_string`'s Step 1 uses its maxLength parameter (default
3000), so a block with 4-byte length 5000 is classified as the current
format by `get_string_info` but finds no valid header in
`read_string`. -/
theorem info_detection_mismatch_cex :
    detectInfo [0, 0, 19, 136, 0, 0, 0, 0, 0, 0, 0, 0, 0, 0, 0, 0] =
        some (5000, 4) ∧
      detectHeader 3000 [0, 0, 19, 136, 0, 0, 0, 0, 0, 0, 0, 0, 0, 0, 0, 0] =
        none := by
  constructor
  · decide
  · decide

/-- C9 (amended): `get_string_info`'s format detection coincides with
`read_string`'s Step 1 detection exactly for maxLength = 10000 (the
ceiling `get_string_info` hard-codes): same branch choice and the same
detected character count for every first-block content. -/
theorem info_detection_matches_at_10000 (bd : List Nat) :
    detectInfo bd = detectHeader 10000 bd := rfl

/-- C10: `read_string` does not mirror `write_string`'s trailer-block
advance: a record written at a trailer start block sb lands at sb + 1,
while `read_string sb` reads the (still blank) trailer block sb itself,
finds no header there, and fails to recover the record. -/
theorem trailer_read_asymmetry (mb sb ml : Nat) (s : List Nat)
    (plan : List (Nat × List Nat)) (htr : (sb + 1) % 4 = 0)
    (hw : write_string mb sb ml s = some plan) :
    (plan.getD 0 (0, [])).1 = sb + 1 ∧
      read_string (write_string_effect zeroDevice mb sb ml s) mb sb ml =
        none := by
  obtain ⟨hml, hsb0, hWlen, hplan⟩ := write_string_some_eq mb sb ml s plan hw
  constructor
  · obtain ⟨hne, hhead⟩ := plan_head_start mb sb ml s plan hw
    rw [hhead]
    unfold adjStart
    rw [if_pos htr]
  · have heff : write_string_effect zeroDevice mb sb ml s =
        applyWrites zeroDevice plan := by
      unfold write_string_effect
      rw [hw]
    rw [heff, hplan]
    apply read_string_noHeader
    have hD := applyWrites_plan_out zeroDevice (chunksNeeded s)
      (fun i => (walkList (adjStart sb) mb).getD i 0) (chunkAt s) sb
      (by
        intro i hi
        have hblen : i < (walkList (adjStart sb) mb).length := by omega
        have hmem := walkList_mem (List.getElem_mem hblen)
        intro he
        have he2 : sb = (walkList (adjStart sb) mb).getD i 0 := he
        rw [List.getD_eq_getElem _ _ hblen] at he2
        omega)
    rw [hD]
    exact detectHeader_zeros ml

/-- C10 witness: "hi" written at trailer block 7 lands at block 8 and
is not recovered by reading from block 7. -/
theorem trailer_read_asymmetry_witness :
    (([(8, [0, 0, 0, 2, 104, 105, 0, 0, 0, 0, 0, 0, 0, 0, 0, 0])] :
        List (Nat × List Nat)).getD 0 (0, [])).1 = 7 + 1 ∧
      read_string (write_string_effect zeroDevice 64 7 3000 [104, 105])
        64 7 3000 = none :=
  trailer_read_asymmetry 64 7 3000 [104, 105]
    [(8, [0, 0, 0, 2, 104, 105, 0, 0, 0, 0, 0, 0, 0, 0, 0, 0])]
    (by decide) (by decide)
